import Mathlib

/-!
Verification development for the volunteer-dashboard repository
(`src/app.py`, with the older variant `src/app-old.py`).

The pipeline's categorical-text subsystem is embedded at the character level:
a pandas `Series` cell is an `Option String` (`none` models a missing value,
`NaN`), and every string operation of the source is translated to an
executable function on `List Char`.

Modelling notes.
* The source's diacritic-folding step (`unicodedata.normalize("NFKD", x)`
  followed by an ASCII encode that drops unencodable characters) is modelled
  by a finite table covering the Latin characters this domain uses: every
  ASCII character is kept unchanged, each tabled accented letter is replaced
  by its base ASCII letter, and every other character is dropped — exactly
  what the source does to characters with no ASCII-yielding decomposition
  (for example `¡`).
* Lower/upper casing and the title-casing word algorithm follow the host
  language's behaviour on this character domain: a cased (alphabetic)
  character is uppercased when the previous character is not cased, and
  lowercased otherwise.
* The whitespace class of the trim step is the ASCII part of the host
  language's whitespace class.
-/

namespace Voluntariado

/-- Whitespace characters recognised by the trim step (ASCII part of the
whitespace class used by the source's `strip`). -/
def pySpace (c : Char) : Bool :=
  c = ' ' || c = '\t' || c = '\n' || c = '\x0b' || c = '\x0c' || c = '\r' ||
  c = '\x1c' || c = '\x1d' || c = '\x1e' || c = '\x1f'

/-- Accented uppercase letters of the domain and their lowercase forms. -/
def accentLower : List (Char × Char) :=
  [('Á', 'á'), ('É', 'é'), ('Í', 'í'), ('Ó', 'ó'), ('Ú', 'ú'), ('Ñ', 'ñ'), ('Ü', 'ü')]

/-- Accented lowercase letters of the domain and their uppercase forms. -/
def accentUpper : List (Char × Char) :=
  [('á', 'Á'), ('é', 'É'), ('í', 'Í'), ('ó', 'Ó'), ('ú', 'Ú'), ('ñ', 'Ñ'), ('ü', 'Ü')]

/-- Result of NFKD decomposition followed by dropping combining marks, for
the accented letters of the domain: each maps to its base ASCII letter. -/
def accentBase : List (Char × Char) :=
  [('á', 'a'), ('é', 'e'), ('í', 'i'), ('ó', 'o'), ('ú', 'u'), ('ñ', 'n'), ('ü', 'u'),
   ('Á', 'A'), ('É', 'E'), ('Í', 'I'), ('Ó', 'O'), ('Ú', 'U'), ('Ñ', 'N'), ('Ü', 'U')]

/-- ASCII uppercase letter test. -/
def asciiUpperB (c : Char) : Bool := 'A' ≤ c && c ≤ 'Z'

/-- ASCII lowercase letter test. -/
def asciiLowerB (c : Char) : Bool := 'a' ≤ c && c ≤ 'z'

/-- Lowercasing as performed by the source's `.str.lower()` on this domain. -/
def pyLower (c : Char) : Char :=
  if asciiUpperB c then Char.ofNat (c.toNat + 32) else ((accentLower.lookup c).getD c)

/-- Uppercasing of a single character (used by the title-casing step). -/
def pyUpper (c : Char) : Char :=
  if asciiLowerB c then Char.ofNat (c.toNat - 32) else ((accentUpper.lookup c).getD c)

/-- Cased (alphabetic) character test, the word-boundary notion of the
title-casing algorithm. -/
def pyIsAlpha (c : Char) : Bool :=
  asciiUpperB c || asciiLowerB c || (accentBase.lookup c).isSome

/-- NFKD decomposition followed by an ASCII encode that ignores unencodable
characters: ASCII is kept, tabled accented letters fold to their base letter,
every other character is dropped. -/
def nfkdAscii (c : Char) : List Char :=
  if c.toNat < 128 then [c]
  else
    match accentBase.lookup c with
    | some b => [b]
    | none => []

/-- Concatenated diacritic folding of a whole string (the NFKD + ASCII-encode
step of `normalize_text`). -/
def foldAscii : List Char → List Char
  | [] => []
  | c :: cs => nfkdAscii c ++ foldAscii cs

/-- Remove leading whitespace. -/
def stripLeft (l : List Char) : List Char := l.dropWhile pySpace

/-- Remove trailing whitespace. -/
def stripRight : List Char → List Char
  | [] => []
  | c :: cs =>
    match stripRight cs with
    | [] => if pySpace c then [] else [c]
    | r => c :: r

/-- The source's `.str.strip()`: remove surrounding whitespace. -/
def pyStrip (l : List Char) : List Char := stripRight (stripLeft l)

/-- Title-casing with the previous-character-cased state: a cased character
is uppercased after a non-cased character and lowercased otherwise. -/
def titleAux : Bool → List Char → List Char
  | _, [] => []
  | prev, c :: cs => (if prev then pyLower c else pyUpper c) :: titleAux (pyIsAlpha c) cs

/-- The source's `.str.title()`. -/
def pyTitle (l : List Char) : List Char := titleAux false l

/-- The character-level pipeline of `normalize_text` on one cell that is
already a string: strip, lowercase, diacritic-fold, title-case. -/
def normalizeList (l : List Char) : List Char :=
  pyTitle (foldAscii ((pyStrip l).map pyLower))

/-- String version of the `normalize_text` pipeline on one present cell. -/
def normalizeStr (s : String) : String := ⟨normalizeList s.data⟩

/-- The source's `normalize_text` on one cell: a missing value is first
replaced by the sentinel "Sin dato" (the `fillna` step), then the string
pipeline runs. -/
def normalize_text (x : Option String) : String :=
  normalizeStr (x.getD "Sin dato")

/-- The ASCII characters. -/
def asciiChars : List Char := (List.range 128).map Char.ofNat

/-- The character domain of the embedding: ASCII together with the tabled
accented letters.  On this domain every step of the source pipeline is
modelled exactly; characters outside it are dropped by the folding step. -/
def domChars : List Char := asciiChars ++ accentBase.map Prod.fst

/-- Base ASCII letter of a character after lowercasing and diacritic folding
(the single character the folding step keeps for a domain character). -/
def baseLetter (c : Char) : Char := (nfkdAscii (pyLower c)).headD c

set_option maxRecDepth 4096

/-- Per-character facts about domain characters: lowering then folding keeps
exactly one character, that character is ASCII, and both lowering and folding
preserve whitespace-ness. -/
theorem domChar_facts : ∀ c ∈ domChars,
    nfkdAscii (pyLower c) = [baseLetter c] ∧ baseLetter c ∈ asciiChars ∧
    pySpace (baseLetter c) = pySpace c ∧ pySpace (pyLower c) = pySpace c := by decide

/-- Per-character facts about ASCII characters: casing operations are
ASCII-closed, idempotent in the needed combinations, and preserve both
whitespace-ness and cased-ness; folding keeps an ASCII character. -/
theorem asciiChar_facts : ∀ c ∈ asciiChars,
    pyLower c ∈ asciiChars ∧ pyUpper c ∈ asciiChars ∧
    pyLower (pyUpper c) = pyLower c ∧ pyLower (pyLower c) = pyLower c ∧
    pyUpper (pyLower c) = pyUpper c ∧ pyIsAlpha (pyLower c) = pyIsAlpha c ∧
    pySpace (pyUpper c) = pySpace c ∧ pySpace (pyLower c) = pySpace c ∧
    nfkdAscii c = [c] := by decide

/-- The head of the left-trim output is never whitespace. -/
theorem head_stripLeft : ∀ {l : List Char} {h : Char},
    (stripLeft l).head? = some h → pySpace h = false := by
  intro l
  induction l with
  | nil => intro h hh; simp [stripLeft] at hh
  | cons x xs ih =>
    intro h hh
    by_cases hx : pySpace x
    · rw [stripLeft, List.dropWhile_cons_of_pos hx] at hh
      exact ih hh
    · rw [stripLeft, List.dropWhile_cons_of_neg hx] at hh
      simp only [List.head?_cons, Option.some.injEq] at hh
      subst hh
      simpa using hx

/-- Membership in the left-trim output implies membership in the input. -/
theorem mem_stripLeft {l : List Char} {c : Char} (hc : c ∈ stripLeft l) : c ∈ l :=
  (List.dropWhile_sublist pySpace).subset hc

/-- Membership in the right-trim output implies membership in the input. -/
theorem mem_stripRight : ∀ {l : List Char} {c : Char}, c ∈ stripRight l → c ∈ l := by
  intro l
  induction l with
  | nil => intro c hc; exact hc
  | cons x xs ih =>
    intro c hc
    cases hr : stripRight xs with
    | nil =>
      rw [stripRight, hr] at hc
      by_cases hx : pySpace x
      · rw [if_pos hx] at hc; cases hc
      · rw [if_neg hx] at hc
        simp only [List.mem_singleton] at hc
        simp [hc]
    | cons y ys =>
      rw [stripRight, hr] at hc
      rcases List.mem_cons.1 hc with h | h
      · simp [h]
      · exact List.mem_cons_of_mem x (ih (hr ▸ h))

/-- The last element of the right-trim output is never whitespace. -/
theorem getLast_stripRight : ∀ {l : List Char} {h : Char},
    (stripRight l).getLast? = some h → pySpace h = false := by
  intro l
  induction l with
  | nil => intro h hh; simp [stripRight] at hh
  | cons x xs ih =>
    intro h hh
    cases hr : stripRight xs with
    | nil =>
      rw [stripRight, hr] at hh
      by_cases hx : pySpace x
      · rw [if_pos hx] at hh; simp at hh
      · rw [if_neg hx] at hh
        simp only [List.getLast?_singleton, Option.some.injEq] at hh
        subst hh
        simpa using hx
    | cons y ys =>
      rw [stripRight, hr, List.getLast?_cons_cons] at hh
      exact ih (hr ▸ hh)

/-- A head surviving the right trim is the head of the input. -/
theorem head_stripRight : ∀ {l : List Char} {h : Char},
    (stripRight l).head? = some h → l.head? = some h := by
  intro l
  cases l with
  | nil => intro h hh; simp [stripRight] at hh
  | cons x xs =>
    intro h hh
    cases hr : stripRight xs with
    | nil =>
      rw [stripRight, hr] at hh
      by_cases hx : pySpace x
      · rw [if_pos hx] at hh; cases hh
      · rw [if_neg hx] at hh
        simpa using hh
    | cons y ys =>
      rw [stripRight, hr] at hh
      simpa using hh

/-- Left trim is the identity when the head is not whitespace. -/
theorem stripLeft_eq_self {l : List Char}
    (h : ∀ c, l.head? = some c → pySpace c = false) : stripLeft l = l := by
  cases l with
  | nil => rfl
  | cons x xs =>
    have hx := h x (by simp)
    rw [stripLeft, List.dropWhile_cons_of_neg (by simp [hx])]

/-- Right trim is the identity when the last element is not whitespace. -/
theorem stripRight_eq_self : ∀ {l : List Char},
    (∀ c, l.getLast? = some c → pySpace c = false) → stripRight l = l := by
  intro l
  induction l with
  | nil => intro _; rfl
  | cons x xs ih =>
    intro h
    cases xs with
    | nil =>
      have hx := h x (by simp)
      simp [stripRight, hx]
    | cons y ys =>
      have hxs : stripRight (y :: ys) = y :: ys := by
        apply ih
        intro c hc
        exact h c (by rw [List.getLast?_cons_cons]; exact hc)
      rw [stripRight, hxs]

/-- A list is stripped when neither end is whitespace. -/
def Stripped (l : List Char) : Prop :=
  (∀ c, l.head? = some c → pySpace c = false) ∧
  (∀ c, l.getLast? = some c → pySpace c = false)

/-- Trimming a stripped list changes nothing. -/
theorem pyStrip_eq_self {l : List Char} (h : Stripped l) : pyStrip l = l := by
  rw [pyStrip, stripLeft_eq_self h.1, stripRight_eq_self h.2]

/-- The output of the trim step is stripped. -/
theorem stripped_pyStrip (l : List Char) : Stripped (pyStrip l) := by
  constructor
  · intro c hc
    exact head_stripLeft (head_stripRight hc)
  · intro c hc
    exact getLast_stripRight hc

/-- Membership in the trim output implies membership in the input. -/
theorem mem_pyStrip {l : List Char} {c : Char} (hc : c ∈ pyStrip l) : c ∈ l :=
  mem_stripLeft (mem_stripRight hc)

/-- Strippedness transfers along equality of whitespace profiles. -/
theorem stripped_of_spaceMap {l₁ l₂ : List Char}
    (hmap : l₁.map pySpace = l₂.map pySpace) (h : Stripped l₁) : Stripped l₂ := by
  constructor
  · intro c hc
    have h2 : (l₁.map pySpace).head? = (l₂.map pySpace).head? := by rw [hmap]
    rw [List.head?_map, List.head?_map, hc] at h2
    cases hl1 : l₁.head? with
    | none => rw [hl1] at h2; cases h2
    | some d =>
      rw [hl1] at h2
      simp only [Option.map_some', Option.some.injEq] at h2
      rw [← h2]
      exact h.1 d hl1
  · intro c hc
    have h2 : (l₁.map pySpace).getLast? = (l₂.map pySpace).getLast? := by rw [hmap]
    rw [List.getLast?_map, List.getLast?_map, hc] at h2
    cases hl1 : l₁.getLast? with
    | none => rw [hl1] at h2; cases h2
    | some d =>
      rw [hl1] at h2
      simp only [Option.map_some', Option.some.injEq] at h2
      rw [← h2]
      exact h.2 d hl1

/-- On domain characters, lowering then folding is a plain map to the base
letter. -/
theorem foldAscii_lower_eq_map : ∀ {l : List Char}, (∀ c ∈ l, c ∈ domChars) →
    foldAscii (l.map pyLower) = l.map baseLetter := by
  intro l
  induction l with
  | nil => intro _; rfl
  | cons x xs ih =>
    intro hd
    simp only [List.map_cons, foldAscii]
    rw [(domChar_facts x (hd x (by simp))).1, ih (fun c hc => hd c (by simp [hc]))]
    rfl

/-- Folding is the identity on ASCII strings. -/
theorem foldAscii_ascii_id : ∀ {l : List Char}, (∀ c ∈ l, c ∈ asciiChars) →
    foldAscii l = l := by
  intro l
  induction l with
  | nil => intro _; rfl
  | cons x xs ih =>
    intro ha
    rw [foldAscii, (asciiChar_facts x (ha x (by simp))).2.2.2.2.2.2.2.2,
      ih (fun c hc => ha c (by simp [hc]))]
    rfl

/-- Lowering the output of title-casing gives the lowering of its input. -/
theorem titleAux_map_lower : ∀ {l : List Char}, (∀ c ∈ l, c ∈ asciiChars) →
    ∀ b, (titleAux b l).map pyLower = l.map pyLower := by
  intro l
  induction l with
  | nil => intro _ b; rfl
  | cons x xs ih =>
    intro ha b
    obtain ⟨-, -, h3, h4, -, -, -, -, -⟩ := asciiChar_facts x (ha x (by simp))
    simp only [titleAux, List.map_cons]
    rw [ih (fun c hc => ha c (by simp [hc])) (pyIsAlpha x)]
    cases b with
    | true => simp [h4]
    | false => simp [h3]

/-- Title-casing is insensitive to lowering its input. -/
theorem titleAux_lower_input : ∀ {l : List Char}, (∀ c ∈ l, c ∈ asciiChars) →
    ∀ b, titleAux b (l.map pyLower) = titleAux b l := by
  intro l
  induction l with
  | nil => intro _ b; rfl
  | cons x xs ih =>
    intro ha b
    obtain ⟨-, -, -, h4, h5, h6, -, -, -⟩ := asciiChar_facts x (ha x (by simp))
    simp only [List.map_cons, titleAux, h4, h5, h6]
    rw [ih (fun c hc => ha c (by simp [hc])) (pyIsAlpha x)]

/-- Title-casing preserves the whitespace profile of an ASCII string. -/
theorem titleAux_spaceMap : ∀ {l : List Char}, (∀ c ∈ l, c ∈ asciiChars) →
    ∀ b, (titleAux b l).map pySpace = l.map pySpace := by
  intro l
  induction l with
  | nil => intro _ b; rfl
  | cons x xs ih =>
    intro ha b
    obtain ⟨-, -, -, -, -, -, h7, h8, -⟩ := asciiChar_facts x (ha x (by simp))
    simp only [titleAux, List.map_cons]
    rw [ih (fun c hc => ha c (by simp [hc])) (pyIsAlpha x)]
    cases b with
    | true => simp [h8]
    | false => simp [h7]

/-- Title-casing keeps ASCII strings ASCII. -/
theorem titleAux_ascii : ∀ {l : List Char}, (∀ c ∈ l, c ∈ asciiChars) →
    ∀ b c, c ∈ titleAux b l → c ∈ asciiChars := by
  intro l
  induction l with
  | nil => intro _ b c hc; cases hc
  | cons x xs ih =>
    intro ha b c hc
    obtain ⟨h1, h2, -, -, -, -, -, -, -⟩ := asciiChar_facts x (ha x (by simp))
    rcases List.mem_cons.1 hc with h | h
    · subst h
      cases b with
      | true => simpa using h1
      | false => simpa using h2
    · exact ih (fun d hd => ha d (by simp [hd])) (pyIsAlpha x) c h

/-- Core idempotence of the character pipeline on domain strings. -/
theorem normalizeList_idem {l : List Char} (hd : ∀ c ∈ l, c ∈ domChars) :
    normalizeList (normalizeList l) = normalizeList l := by
  have hds : ∀ c ∈ pyStrip l, c ∈ domChars := fun c hc => hd c (mem_pyStrip hc)
  have hu : foldAscii ((pyStrip l).map pyLower) = (pyStrip l).map baseLetter :=
    foldAscii_lower_eq_map hds
  have hau : ∀ c ∈ (pyStrip l).map baseLetter, c ∈ asciiChars := by
    intro c hc
    obtain ⟨a, ha, rfl⟩ := List.mem_map.1 hc
    exact (domChar_facts a (hds a ha)).2.1
  have hnl : normalizeList l = pyTitle ((pyStrip l).map baseLetter) := by
    rw [normalizeList, hu]
  have hat : ∀ c ∈ pyTitle ((pyStrip l).map baseLetter), c ∈ asciiChars :=
    fun c hc => titleAux_ascii hau false c hc
  have sp1 : ((pyStrip l).map baseLetter).map pySpace = (pyStrip l).map pySpace := by
    rw [List.map_map]
    exact List.map_congr_left (fun a ha => (domChar_facts a (hds a ha)).2.2.1)
  have sp2 : (pyTitle ((pyStrip l).map baseLetter)).map pySpace
      = ((pyStrip l).map baseLetter).map pySpace := titleAux_spaceMap hau false
  have hstr_t : Stripped (pyTitle ((pyStrip l).map baseLetter)) :=
    stripped_of_spaceMap (by rw [sp2, sp1]) (stripped_pyStrip l)
  rw [hnl]
  rw [normalizeList, pyStrip_eq_self hstr_t]
  have h1 : (pyTitle ((pyStrip l).map baseLetter)).map pyLower
      = ((pyStrip l).map baseLetter).map pyLower := titleAux_map_lower hau false
  rw [h1]
  have halu : ∀ c ∈ ((pyStrip l).map baseLetter).map pyLower, c ∈ asciiChars := by
    intro c hc
    obtain ⟨a, ha, rfl⟩ := List.mem_map.1 hc
    exact (asciiChar_facts a (hau a ha)).1
  rw [foldAscii_ascii_id halu]
  exact titleAux_lower_input hau false

/-- C1 (counterexample): the normalizer is not idempotent on every reachable
input.  On "¡ a" the folding step drops the non-decomposable character `¡`
and exposes a leading space that the earlier trim step can no longer remove,
so the first pass returns " A" while a second pass returns "A". -/
theorem normalize_not_idempotent_on_dropped_char :
    normalize_text (some "¡ a") = " A" ∧
    normalizeStr (normalize_text (some "¡ a")) = "A" ∧
    normalizeStr (normalize_text (some "¡ a")) ≠ normalize_text (some "¡ a") := by
  refine ⟨by decide, by decide, by decide⟩

/-- C1 (amended): the normalizer is idempotent on every input — including the
missing value, which the `fillna` step first replaces by "Sin dato" — whose
characters all lie in the modelled domain (ASCII plus the accented Latin
letters the folding step keeps); it can fail only when the folding step drops
a character outright. -/
theorem normalize_text_idem (x : Option String)
    (h : ∀ c ∈ (x.getD "Sin dato").data, c ∈ domChars) :
    normalizeStr (normalize_text x) = normalize_text x := by
  show (⟨normalizeList (normalizeList ((x.getD "Sin dato").data))⟩ : String)
      = ⟨normalizeList ((x.getD "Sin dato").data)⟩
  exact congrArg String.mk (normalizeList_idem h)

/-- Witness for the amended C1 theorem at the inputs "  MÉXICO " and `none`. -/
theorem normalize_text_idem_witness :
    ((∀ c ∈ (((some "  MÉXICO " : Option String)).getD "Sin dato").data, c ∈ domChars) ∧
      normalizeStr (normalize_text (some "  MÉXICO ")) = normalize_text (some "  MÉXICO ")) ∧
    normalizeStr (normalize_text none) = normalize_text none :=
  ⟨⟨by decide, normalize_text_idem (some "  MÉXICO ") (by decide)⟩,
    normalize_text_idem none (by decide)⟩

/-- C2: two raw values that differ only by case, accents, or surrounding
whitespace — formalised as having the same per-character base letters after
trimming — normalize to the same canonical value; in particular
"  MÉXICO " and "mexico" both normalize to "Mexico". -/
theorem normalize_case_accent_ws_invariant (x y : String)
    (hx : ∀ c ∈ x.data, c ∈ domChars) (hy : ∀ c ∈ y.data, c ∈ domChars)
    (hbase : (pyStrip x.data).map baseLetter = (pyStrip y.data).map baseLetter) :
    normalizeStr x = normalizeStr y ∧
    normalizeStr "  MÉXICO " = "Mexico" ∧ normalizeStr "mexico" = "Mexico" := by
  refine ⟨?_, by decide, by decide⟩
  rw [normalizeStr, normalizeStr]
  congr 1
  rw [normalizeList, normalizeList,
    foldAscii_lower_eq_map (fun c hc => hx c (mem_pyStrip hc)),
    foldAscii_lower_eq_map (fun c hc => hy c (mem_pyStrip hc)), hbase]

/-- Witness for C2 at the spec's example pair. -/
theorem normalize_case_accent_ws_invariant_witness :
    normalizeStr "  MÉXICO " = normalizeStr "mexico" ∧
    normalizeStr "  MÉXICO " = "Mexico" ∧ normalizeStr "mexico" = "Mexico" :=
  normalize_case_accent_ws_invariant "  MÉXICO " "mexico" (by decide) (by decide) (by decide)

/-- C3 (counterexample): a blank input is not mapped to the missing-value
sentinel.  The `fillna` step of the source only replaces the missing value;
an empty or whitespace-only string normalizes to the empty string. -/
theorem blank_not_sentinel :
    normalize_text (some "") = "" ∧ normalize_text (some "   ") = "" ∧
    normalize_text (some "") ≠ "Sin dato" ∧ normalize_text (some "") ≠ "Sin Dato" := by
  refine ⟨by decide, by decide, by decide, by decide⟩

/-- C3 (amended): only the missing (null) input receives the sentinel, which
after the title-casing step reads "Sin Dato"; every blank (empty or
whitespace-only) input normalizes to the empty string instead. -/
theorem normalize_text_null_blank :
    normalize_text none = "Sin Dato" ∧
    (∀ s : String, (∀ c ∈ s.data, pySpace c = true) → normalize_text (some s) = "") := by
  refine ⟨by decide, ?_⟩
  intro s hs
  have h1 : ∀ l : List Char, (∀ c ∈ l, pySpace c = true) → stripLeft l = [] := by
    intro l
    induction l with
    | nil => intro _; rfl
    | cons x xs ih =>
      intro h
      rw [stripLeft, List.dropWhile_cons_of_pos (by simp [h x (by simp)])]
      exact ih (fun c hc => h c (by simp [hc]))
  show normalizeStr s = ""
  rw [normalizeStr, normalizeList, pyStrip, h1 s.data hs]
  rfl

/-- Witness for the amended C3 theorem at the whitespace-only input "  ". -/
theorem normalize_text_null_blank_witness :
    (∀ c ∈ ("  " : String).data, pySpace c = true) ∧ normalize_text (some "  ") = "" :=
  ⟨by decide, normalize_text_null_blank.2 "  " (by decide)⟩

/-- Test whether the second list occurs at the start of the first. -/
def startsWith : List Char → List Char → Bool
  | _, [] => true
  | [], _ :: _ => false
  | a :: as, b :: bs => a = b && startsWith as bs

/-- The host language's substring test: the needle occurs somewhere in the
haystack. -/
def strHas (needle : List Char) : List Char → Bool
  | [] => needle.isEmpty
  | c :: t => startsWith (c :: t) needle || strHas needle t

/-- Lowercase a whole string, as `find_col` lowers each header label. -/
def lowerStr (s : String) : String := ⟨s.data.map pyLower⟩

/-- The matching test of `find_col`: every required substring occurs in the
lowered header label. -/
def matchesAll (h : String) (subs : List String) : Bool :=
  subs.all (fun s => strHas s.data (h.data.map pyLower))

/-- The source's `find_col`: the first column label whose lowered form
contains all required substrings, `none` when no label matches. -/
def find_col : List String → List String → Option String
  | [], _ => none
  | h :: t, subs => if matchesAll h subs then some h else find_col t subs

/-- Position of the column that `find_col` selects. -/
def find_col_idx : List String → List String → Option Nat
  | [], _ => none
  | h :: t, subs => if matchesAll h subs then some 0 else (find_col_idx t subs).map (· + 1)

/-- The host language's `or` on optional strings: a present but falsy (empty)
string also falls through to the second operand. -/
def pyOrStr (a b : Option String) : Option String :=
  match a with
  | some s => if s = "" then b else some s
  | none => b

/-- Substring set first tried for the country-of-residence role. -/
def subsCountryA : List String := ["país", "residencia"]

/-- Fallback substring set for the country-of-residence role. -/
def subsCountryB : List String := ["pais", "residencia"]

/-- The source's `col_country`: try the accented substring set, else the
unaccented fallback. -/
def col_country (headers : List String) : Option String :=
  pyOrStr (find_col headers subsCountryA) (find_col headers subsCountryB)

/-- A successful `find_col` result matches the substring set. -/
theorem find_col_matches : ∀ {hs : List String} {subs c},
    find_col hs subs = some c → matchesAll c subs = true := by
  intro hs
  induction hs with
  | nil => intro subs c h; cases h
  | cons x t ih =>
    intro subs c h
    by_cases hx : matchesAll x subs
    · rw [find_col, if_pos hx] at h
      cases h
      simpa using hx
    · rw [find_col, if_neg hx] at h
      exact ih h

/-- C4: `find_col` returns the first label in table order whose lowered form
contains all required substrings, returns `none` when no label matches, and
`col_country` falls back to the unaccented substring set exactly when the
accented set yields no match. -/
theorem find_col_first_match_and_fallback (hs subs : List String) :
    (find_col hs subs = none ↔ ∀ h ∈ hs, matchesAll h subs = false) ∧
    (∀ c, find_col hs subs = some c →
      ∃ pre post, hs = pre ++ c :: post ∧ matchesAll c subs = true ∧
        ∀ h ∈ pre, matchesAll h subs = false) ∧
    col_country hs = (match find_col hs subsCountryA with
      | some c => some c
      | none => find_col hs subsCountryB) := by
  refine ⟨?_, ?_, ?_⟩
  · induction hs with
    | nil => simp [find_col]
    | cons x t ih =>
      by_cases hx : matchesAll x subs
      · rw [find_col, if_pos hx]
        simp only [List.mem_cons]
        constructor
        · intro h; cases h
        · intro h
          have := h x (Or.inl rfl)
          rw [this] at hx
          cases hx
      · rw [find_col, if_neg hx]
        rw [ih]
        constructor
        · intro h y hy
          rcases List.mem_cons.1 hy with rfl | hy
          · simpa using hx
          · exact h y hy
        · intro h y hy
          exact h y (List.mem_cons_of_mem x hy)
  · induction hs with
    | nil => intro c h; cases h
    | cons x t ih =>
      intro c h
      by_cases hx : matchesAll x subs
      · rw [find_col, if_pos hx] at h
        cases h
        exact ⟨[], t, rfl, by simpa using hx, by simp⟩
      · rw [find_col, if_neg hx] at h
        obtain ⟨pre, post, hsplit, hc, hpre⟩ := ih c h
        refine ⟨x :: pre, post, by rw [hsplit]; rfl, hc, ?_⟩
        intro y hy
        rcases List.mem_cons.1 hy with rfl | hy
        · simpa using hx
        · exact hpre y hy
  · rw [col_country]
    cases hA : find_col hs subsCountryA with
    | none => rfl
    | some c =>
      have hm : matchesAll c subsCountryA = true := find_col_matches hA
      have hne : c ≠ "" := by
        intro hc
        rw [hc] at hm
        have : matchesAll "" subsCountryA = false := by decide
        rw [this] at hm
        cases hm
      rw [pyOrStr, if_neg hne]

/-- Witness for C4: a concrete header table where the second label is the
first match, and a concrete fallback to the unaccented spelling. -/
theorem find_col_first_match_and_fallback_witness :
    (∃ pre post, ["Nombre", "País de residencia", "Otra residencia país"]
        = pre ++ "País de residencia" :: post ∧
      matchesAll "País de residencia" subsCountryA = true ∧
      ∀ h ∈ pre, matchesAll h subsCountryA = false) ∧
    col_country ["Pais de residencia"] = (match find_col ["Pais de residencia"] subsCountryA with
      | some c => some c
      | none => find_col ["Pais de residencia"] subsCountryB) :=
  ⟨(find_col_first_match_and_fallback
      ["Nombre", "País de residencia", "Otra residencia país"] subsCountryA).2.1
      "País de residencia" (by decide),
    (find_col_first_match_and_fallback ["Pais de residencia"] subsCountryA).2.2⟩

/-- C5 (counterexample): column resolution is not invariant to header order
when two labels both match a role's substrings: the first in table order
wins, so permuting the header changes the binding. -/
theorem find_col_order_sensitive :
    List.Perm ["alfa nacionalidad", "beta nacionalidad"]
      ["beta nacionalidad", "alfa nacionalidad"] ∧
    find_col ["alfa nacionalidad", "beta nacionalidad"] ["nacionalidad"]
      = some "alfa nacionalidad" ∧
    find_col ["beta nacionalidad", "alfa nacionalidad"] ["nacionalidad"]
      = some "beta nacionalidad" ∧
    (some "alfa nacionalidad" : Option String) ≠ some "beta nacionalidad" := by
  refine ⟨by decide, by decide, by decide, by decide⟩

/-- C5 (amended): column resolution is invariant to the letter case of the
header text — headers equal up to case select the same column position — and
it is invariant to column order whenever at most one label matches the
role's substrings; with several matching labels the first in header order
wins. -/
theorem find_col_case_perm_invariance (hs hs' subs : List String) :
    (List.Forall₂ (fun a b => lowerStr a = lowerStr b) hs hs' →
      find_col_idx hs subs = find_col_idx hs' subs) ∧
    (List.Perm hs hs' → hs.countP (fun h => matchesAll h subs) ≤ 1 →
      find_col hs subs = find_col hs' subs) := by
  constructor
  · intro hf
    induction hf with
    | nil => rfl
    | cons hab hrest ih =>
      rename_i a b as bs
      have hdata : a.data.map pyLower = b.data.map pyLower := congrArg String.data hab
      have hm : matchesAll a subs = matchesAll b subs := by
        rw [matchesAll, matchesAll, hdata]
      rw [find_col_idx, find_col_idx, hm, ih]
  · intro hp
    induction hp with
    | nil => intro _; rfl
    | cons x hp ih =>
      intro hcnt
      rw [find_col, find_col]
      by_cases hx : matchesAll x subs
      · rw [if_pos hx, if_pos hx]
      · rw [if_neg hx, if_neg hx]
        apply ih
        rw [List.countP_cons] at hcnt
        simp only [hx] at hcnt
        omega
    | swap x y l =>
      intro hcnt
      by_cases hx : matchesAll x subs <;> by_cases hy : matchesAll y subs
      · exfalso
        rw [List.countP_cons, List.countP_cons, if_pos hx, if_pos hy] at hcnt
        omega
      · simp [find_col, hx, hy]
      · simp [find_col, hx, hy]
      · simp [find_col, hx, hy]
    | trans h1 h2 ih1 ih2 =>
      intro hcnt
      rw [ih1 hcnt, ih2 (by rw [← h1.countP_eq]; exact hcnt)]

/-- Witness for the amended C5 theorem: a case-variant header pair binds the
same position, and a permutation of a uniquely-matching header binds the same
label. -/
theorem find_col_case_perm_invariance_witness :
    find_col_idx ["PAÍS DE RESIDENCIA"] subsCountryA
      = find_col_idx ["país de residencia"] subsCountryA ∧
    find_col ["otra columna", "nacionalidad"] ["nacionalidad"]
      = find_col ["nacionalidad", "otra columna"] ["nacionalidad"] :=
  ⟨(find_col_case_perm_invariance ["PAÍS DE RESIDENCIA"] ["país de residencia"]
      subsCountryA).1 (List.Forall₂.cons (by decide) List.Forall₂.nil),
    (find_col_case_perm_invariance ["otra columna", "nacionalidad"]
      ["nacionalidad", "otra columna"] ["nacionalidad"]).2 (by decide) (by decide)⟩

/-- First-appearance distinct values with an accumulator of already seen
values (the source's `Series.unique` keeps first appearances in order). -/
def uniqAux (seen : List String) : List String → List String
  | [] => []
  | x :: xs => if x ∈ seen then uniqAux seen xs else x :: uniqAux (x :: seen) xs

/-- Distinct values of a series in order of first appearance. -/
def uniqueList (l : List String) : List String := uniqAux [] l

/-- Membership characterisation of the accumulator-based distinct pass. -/
theorem mem_uniqAux : ∀ {it : List String} {seen x},
    x ∈ uniqAux seen it ↔ x ∈ it ∧ x ∉ seen := by
  intro it
  induction it with
  | nil => intro seen x; simp [uniqAux]
  | cons y ys ih =>
    intro seen x
    by_cases hy : y ∈ seen
    · rw [uniqAux, if_pos hy, ih]
      constructor
      · rintro ⟨h1, h2⟩
        exact ⟨List.mem_cons_of_mem y h1, h2⟩
      · rintro ⟨h1, h2⟩
        rcases List.mem_cons.1 h1 with rfl | h1
        · exact absurd hy h2
        · exact ⟨h1, h2⟩
    · rw [uniqAux, if_neg hy]
      constructor
      · intro h
        rcases List.mem_cons.1 h with rfl | h
        · exact ⟨List.mem_cons_self x ys, hy⟩
        · obtain ⟨h1, h2⟩ := ih.1 h
          refine ⟨List.mem_cons_of_mem y h1, fun hs => h2 (List.mem_cons_of_mem y hs)⟩
      · rintro ⟨h1, h2⟩
        rcases List.mem_cons.1 h1 with rfl | h1
        · exact List.mem_cons_self x _
        · by_cases hxy : x = y
          · subst hxy
            exact List.mem_cons_self x _
          · exact List.mem_cons_of_mem y (ih.2 ⟨h1, by simp [hxy, h2]⟩)

/-- Membership in the distinct-value list is membership in the series. -/
theorem mem_uniqueList {l : List String} {x : String} : x ∈ uniqueList l ↔ x ∈ l := by
  rw [uniqueList, mem_uniqAux]
  simp

/-- The distinct pass produces no duplicates. -/
theorem nodup_uniqAux : ∀ {it seen : List String}, (uniqAux seen it).Nodup := by
  intro it
  induction it with
  | nil => intro seen; simp [uniqAux]
  | cons y ys ih =>
    intro seen
    by_cases hy : y ∈ seen
    · rw [uniqAux, if_pos hy]
      exact ih
    · rw [uniqAux, if_neg hy]
      refine List.Nodup.cons ?_ ih
      intro hmem
      exact (mem_uniqAux.1 hmem).2 (List.mem_cons_self y seen)

/-- Replace the final "a" by "o" (the source's `val[:-1] + "o"`). -/
def mascForm (v : String) : String := ⟨v.data.dropLast ++ ['o']⟩

/-- The source's gender-map construction over the iteration list, with the
candidate-presence check against the full original distinct-value list. -/
def gmAux (all : List String) : List String → List (String × String)
  | [] => []
  | v :: vs =>
    if v ≠ "" ∧ v.data.getLast? = some 'a' ∧ mascForm v ∈ all
    then (v, mascForm v) :: gmAux all vs
    else gmAux all vs

/-- The source's `gender_map`, keyed by the original distinct values. -/
def gender_map (vals : List String) : List (String × String) := gmAux vals vals

/-- Element-wise dictionary replacement (`Series.replace`): every element is
looked up once in the mapping, with no chaining. -/
def applyReplace (m : List (String × String)) (l : List String) : List String :=
  l.map (fun x => (m.lookup x).getD x)

/-- The nationality gender-unification block of the source: build the map
from the distinct values, then replace in one pass. -/
def unify_gender_forms (l : List String) : List String :=
  applyReplace (gender_map (uniqueList l)) l

/-- Lookup misses the gender map when the key was never iterated over. -/
theorem lookup_gmAux_none : ∀ {all it : List String} {x}, x ∉ it →
    (gmAux all it).lookup x = none := by
  intro all it
  induction it with
  | nil => intro x _; rfl
  | cons v vs ih =>
    intro x hx
    have hxv : x ≠ v := fun h => hx (h ▸ List.mem_cons_self v vs)
    have hxs : x ∉ vs := fun h => hx (List.mem_cons_of_mem v h)
    rw [gmAux]
    by_cases hc : v ≠ "" ∧ v.data.getLast? = some 'a' ∧ mascForm v ∈ all
    · rw [if_pos hc]
      have hbeq : (x == v) = false := by simp [hxv]
      simp only [List.lookup, hbeq]
      exact ih hxs
    · rw [if_neg hc]
      exact ih hxs

/-- Lookup in the gender map of an iterated key: present exactly when the
key ends in "a" and its masculine counterpart is in the original value set. -/
theorem lookup_gmAux : ∀ {all it : List String} {x}, it.Nodup → x ∈ it →
    (gmAux all it).lookup x =
      if x ≠ "" ∧ x.data.getLast? = some 'a' ∧ mascForm x ∈ all
      then some (mascForm x) else none := by
  intro all it
  induction it with
  | nil => intro x _ hx; cases hx
  | cons v vs ih =>
    intro x hnd hx
    have hvnotin : v ∉ vs := (List.nodup_cons.1 hnd).1
    have hndvs : vs.Nodup := (List.nodup_cons.1 hnd).2
    rcases List.mem_cons.1 hx with rfl | hxs
    · by_cases hc : x ≠ "" ∧ x.data.getLast? = some 'a' ∧ mascForm x ∈ all
      · rw [gmAux, if_pos hc, if_pos hc]
        simp [List.lookup]
      · rw [gmAux, if_neg hc, if_neg hc]
        exact lookup_gmAux_none hvnotin
    · have hxv : x ≠ v := fun h => hvnotin (h ▸ hxs)
      by_cases hc : v ≠ "" ∧ v.data.getLast? = some 'a' ∧ mascForm v ∈ all
      · rw [gmAux, if_pos hc]
        have hbeq : (x == v) = false := by simp [hxv]
        simp only [List.lookup, hbeq]
        exact ih hndvs hxs
      · rw [gmAux, if_neg hc]
        exact ih hndvs hxs

/-- C6: the gender-form unifier maps each series element at most once, using
only the original distinct-value set: an element is replaced by its
masculine counterpart exactly when it is non-empty, ends in "a", and the
counterpart already occurs in the series; all replacements happen in one
pass with no chaining.  On the spec's examples, "Dominicana" (3 rows) with
"Dominicano" (2 rows) collapses to a single category with count 5, and a
lone "Cubana" is left unchanged. -/
theorem unify_gender_forms_spec :
    (∀ l : List String, unify_gender_forms l = l.map (fun x =>
      if x ≠ "" ∧ x.data.getLast? = some 'a' ∧ mascForm x ∈ l then mascForm x else x)) ∧
    unify_gender_forms ["Dominicana", "Dominicana", "Dominicana", "Dominicano", "Dominicano"]
      = ["Dominicano", "Dominicano", "Dominicano", "Dominicano", "Dominicano"] ∧
    List.count "Dominicano"
      (unify_gender_forms ["Dominicana", "Dominicana", "Dominicana", "Dominicano", "Dominicano"]) = 5 ∧
    unify_gender_forms ["Cubana"] = ["Cubana"] := by
  refine ⟨?_, by decide, by decide, by decide⟩
  intro l
  rw [unify_gender_forms, applyReplace]
  apply List.map_congr_left
  intro x hx
  rw [gender_map, @lookup_gmAux (uniqueList l) (uniqueList l) x (@nodup_uniqAux l [])
    (mem_uniqueList.2 hx)]
  have hiff : (x ≠ "" ∧ x.data.getLast? = some 'a' ∧ mascForm x ∈ uniqueList l)
      ↔ (x ≠ "" ∧ x.data.getLast? = some 'a' ∧ mascForm x ∈ l) := by
    constructor
    · rintro ⟨h1, h2, h3⟩
      exact ⟨h1, h2, mem_uniqueList.1 h3⟩
    · rintro ⟨h1, h2, h3⟩
      exact ⟨h1, h2, mem_uniqueList.2 h3⟩
  rw [if_congr hiff rfl rfl]
  by_cases hc : x ≠ "" ∧ x.data.getLast? = some 'a' ∧ mascForm x ∈ l
  · rw [if_pos hc, if_pos hc]
    rfl
  · rw [if_neg hc, if_neg hc]
    rfl

/-- Stable descending insertion: the new pair goes before the first entry
whose count does not exceed its own, so earlier entries win ties. -/
def insertDesc (x : String × Nat) : List (String × Nat) → List (String × Nat)
  | [] => [x]
  | y :: ys => if y.2 ≤ x.2 then x :: y :: ys else y :: insertDesc x ys

/-- Stable descending sort by count (the sort inside `value_counts`). -/
def sortDesc : List (String × Nat) → List (String × Nat)
  | [] => []
  | x :: xs => insertDesc x (sortDesc xs)

/-- Distinct values paired with their multiplicities, in first-appearance
order (the grouping step of `value_counts`). -/
def uniqPairs (l : List String) : List (String × Nat) :=
  (uniqueList l).map (fun v => (v, l.count v))

/-- The source's `value_counts`: group by value, count rows, sort descending
by count with a stable tie-break. -/
def value_counts (l : List String) : List (String × Nat) := sortDesc (uniqPairs l)

/-- Inserting is a permutation-respecting cons. -/
theorem insertDesc_perm (x : String × Nat) :
    ∀ s : List (String × Nat), (insertDesc x s).Perm (x :: s) := by
  intro s
  induction s with
  | nil => exact List.Perm.refl _
  | cons y ys ih =>
    rw [insertDesc]
    by_cases h : y.2 ≤ x.2
    · rw [if_pos h]
    · rw [if_neg h]
      exact List.Perm.trans (List.Perm.cons y ih) (List.Perm.swap x y ys)

/-- The stable sort permutes its input. -/
theorem sortDesc_perm : ∀ s : List (String × Nat), (sortDesc s).Perm s := by
  intro s
  induction s with
  | nil => exact List.Perm.refl _
  | cons x xs ih =>
    exact List.Perm.trans (insertDesc_perm x (sortDesc xs)) (List.Perm.cons x ih)

/-- The output order of `value_counts` relative to a series: strictly larger
count first, ties resolved by earlier first appearance in the series. -/
def vcOrder (l : List String) (a b : String × Nat) : Prop :=
  b.2 < a.2 ∨ (a.2 = b.2 ∧ l.indexOf a.1 < l.indexOf b.1)

/-- Inserting an element that appears earlier than the whole sorted tail
preserves the `value_counts` order. -/
theorem pairwise_insertDesc {l : List String} {x : String × Nat} :
    ∀ {s : List (String × Nat)}, s.Pairwise (vcOrder l) →
    (∀ y ∈ s, l.indexOf x.1 < l.indexOf y.1) →
    (insertDesc x s).Pairwise (vcOrder l) := by
  intro s
  induction s with
  | nil => intro _ _; exact List.pairwise_singleton _ x
  | cons y ys ih =>
    intro hp hord
    have hpy := List.pairwise_cons.1 hp
    rw [insertDesc]
    by_cases h : y.2 ≤ x.2
    · rw [if_pos h]
      refine List.pairwise_cons.2 ⟨?_, hp⟩
      intro z hz
      rcases List.mem_cons.1 hz with rfl | hz
      · rcases Nat.lt_or_ge z.2 x.2 with hlt | hge
        · exact Or.inl hlt
        · exact Or.inr ⟨Nat.le_antisymm hge h, hord z (List.mem_cons_self z ys)⟩
      · rcases hpy.1 z hz with hlt | ⟨heq, _⟩
        · exact Or.inl (Nat.lt_of_lt_of_le hlt h)
        · rcases Nat.lt_or_ge z.2 x.2 with hlt | hge
          · exact Or.inl hlt
          · refine Or.inr ⟨Nat.le_antisymm (heq ▸ hge) (heq ▸ h), ?_⟩
            exact hord z (List.mem_cons_of_mem y hz)
    · rw [if_neg h]
      refine List.pairwise_cons.2 ⟨?_, ?_⟩
      · intro z hz
        rcases List.mem_cons.1 ((insertDesc_perm x ys).mem_iff.1 hz) with rfl | hz2
        · exact Or.inl (Nat.lt_of_not_le h)
        · exact hpy.1 z hz2
      · exact ih hpy.2 (fun z hz => hord z (List.mem_cons_of_mem y hz))

/-- Sorting a first-appearance-ordered count list yields the full
`value_counts` order. -/
theorem pairwise_sortDesc {l : List String} :
    ∀ {s : List (String × Nat)},
    s.Pairwise (fun a b => l.indexOf a.1 < l.indexOf b.1) →
    (sortDesc s).Pairwise (vcOrder l) := by
  intro s
  induction s with
  | nil => intro _; exact List.Pairwise.nil
  | cons x xs ih =>
    intro hp
    have hpx := List.pairwise_cons.1 hp
    refine pairwise_insertDesc (ih hpx.2) ?_
    intro y hy
    exact hpx.1 y ((sortDesc_perm xs).mem_iff.1 hy)

/-- The distinct pass lists values in strictly increasing order of their
first position in the iterated list. -/
theorem pairwise_indexOf_uniqAux : ∀ {it seen : List String},
    (uniqAux seen it).Pairwise (fun u v => it.indexOf u < it.indexOf v) := by
  intro it
  induction it with
  | nil => intro seen; exact List.Pairwise.nil
  | cons y ys ih =>
    intro seen
    by_cases hy : y ∈ seen
    · rw [uniqAux, if_pos hy]
      refine List.Pairwise.imp_of_mem ?_ (@ih seen)
      intro u v hu hv hlt
      have hu2 := mem_uniqAux.1 hu
      have hv2 := mem_uniqAux.1 hv
      have huy : y ≠ u := fun h => hu2.2 (h ▸ hy)
      have hvy : y ≠ v := fun h => hv2.2 (h ▸ hy)
      rw [List.indexOf_cons_ne ys huy, List.indexOf_cons_ne ys hvy]
      exact Nat.succ_lt_succ hlt
    · rw [uniqAux, if_neg hy]
      refine List.pairwise_cons.2 ⟨?_, ?_⟩
      · intro v hv
        have hv2 := mem_uniqAux.1 hv
        have hvy : y ≠ v := fun h => hv2.2 (h ▸ List.mem_cons_self y seen)
        rw [List.indexOf_cons_self, List.indexOf_cons_ne ys hvy]
        exact Nat.succ_pos _
      · refine List.Pairwise.imp_of_mem ?_ (@ih (y :: seen))
        intro u v hu hv hlt
        have hu2 := mem_uniqAux.1 hu
        have hv2 := mem_uniqAux.1 hv
        have huy : y ≠ u := fun h => hu2.2 (h ▸ List.mem_cons_self y seen)
        have hvy : y ≠ v := fun h => hv2.2 (h ▸ List.mem_cons_self y seen)
        rw [List.indexOf_cons_ne ys huy, List.indexOf_cons_ne ys hvy]
        exact Nat.succ_lt_succ hlt

/-- C7: the frequency count groups the series by value (each output pair
carries the exact row count of its value, and every value of the series
appears), and the output is ordered by strictly descending count with ties
broken by first appearance in the series; on the spec's example it returns
[("A",3),("B",2),("C",1)]. -/
theorem value_counts_spec (l : List String) :
    (∀ p ∈ value_counts l, p.2 = l.count p.1 ∧ p.1 ∈ l) ∧
    (∀ v ∈ l, (v, l.count v) ∈ value_counts l) ∧
    (value_counts l).Pairwise (vcOrder l) ∧
    value_counts ["A", "B", "A", "C", "B", "A"] = [("A", 3), ("B", 2), ("C", 1)] := by
  refine ⟨?_, ?_, ?_, by decide⟩
  · intro p hp
    have hp2 : p ∈ uniqPairs l := (sortDesc_perm (uniqPairs l)).subset hp
    obtain ⟨v, hv, rfl⟩ := List.mem_map.1 hp2
    exact ⟨rfl, mem_uniqueList.1 hv⟩
  · intro v hv
    exact (sortDesc_perm (uniqPairs l)).mem_iff.2
      (List.mem_map.2 ⟨v, mem_uniqueList.2 hv, rfl⟩)
  · apply pairwise_sortDesc
    rw [uniqPairs, List.pairwise_map]
    exact pairwise_indexOf_uniqAux

/-- Witness for C7 at the spec's example series. -/
theorem value_counts_spec_witness :
    ((("A", 3) : String × Nat).2 = List.count "A" ["A", "B", "A", "C", "B", "A"] ∧
      (("A", 3) : String × Nat).1 ∈ ["A", "B", "A", "C", "B", "A"]) ∧
    ("B", List.count "B" ["A", "B", "A", "C", "B", "A"])
      ∈ value_counts ["A", "B", "A", "C", "B", "A"] :=
  ⟨(value_counts_spec ["A", "B", "A", "C", "B", "A"]).1 ("A", 3) (by decide),
    (value_counts_spec ["A", "B", "A", "C", "B", "A"]).2.1 "B" (by decide)⟩

/-- A calendar date as the source uses it (year, month, day). -/
structure PyDate where
  year : Int
  month : Int
  day : Int

/-- Whole-year age at a reference date: reference year minus birth year,
minus one more when the reference (month, day) lexicographically precedes
the birth (month, day) — the source's tuple comparison. -/
def ageAt (ref : PyDate) (dob : PyDate) : Int :=
  ref.year - dob.year -
    (if ref.month < dob.month ∨ (ref.month = dob.month ∧ ref.day < dob.day) then 1 else 0)

/-- The fixed reference date of the source (2025-07-21). -/
def refDate : PyDate := ⟨2025, 7, 21⟩

/-- The source's bin edges for age groups. -/
def ageBins : List Int := [15, 18, 25, 35, 50, 100]

/-- The source's age-group labels. -/
def ageLabels : List String := ["15‑18", "18‑25", "25‑35", "35‑50", "50+"]

/-- The half-open bucketing of `pd.cut(..., right=False)`: the label of the
first interval [lo, hi) containing the value, none when no interval does. -/
def pdCut : List Int → List String → Int → Option String
  | lo :: hi :: bs, lbl :: ls, a =>
    if lo ≤ a ∧ a < hi then some lbl else pdCut (hi :: bs) ls a
  | _, _, _ => none

/-- Bucket of an age under the source's partition. -/
def ageGroup (a : Int) : Option String := pdCut ageBins ageLabels a

/-- Age of an optional (possibly unparseable) date of birth: a missing or
unparseable date produces no age. -/
def ageOf (ref : PyDate) (dob : Option PyDate) : Option Int := dob.map (ageAt ref)

/-- Bucketing a whole column of optional dates of birth. -/
def bucket_ages (ref : PyDate) (dobs : List (Option PyDate)) : List (Option String) :=
  dobs.map (fun od => (ageOf ref od).bind ageGroup)

/-- Histogram over the bucket column: rows without a bucket are dropped
before counting, as `value_counts` ignores missing values. -/
def bucketHist (bs : List (Option String)) : List (String × Nat) :=
  value_counts (bs.filterMap id)

/-- C8: for a parseable date of birth the age is the reference year minus
the birth year, minus one when the reference month/day precedes the birth
month/day; the age is assigned to the first half-open bucket of the fixed
partition (made explicit as nested interval tests); with reference
2025-07-21, DOB 2007-08-01 gives age 17 in bucket "15‑18" and DOB 2007-07-01
gives age 18 in bucket "18‑25"; a missing/unparseable date yields no age,
no bucket, and no histogram row. -/
theorem age_bucketing_spec :
    (∀ ref d : PyDate, ageOf ref (some d) = some (ref.year - d.year -
      (if ref.month < d.month ∨ (ref.month = d.month ∧ ref.day < d.day) then 1 else 0))) ∧
    (∀ ref : PyDate, ageOf ref none = none) ∧
    (∀ a : Int, ageGroup a =
      if 15 ≤ a ∧ a < 18 then some "15‑18"
      else if 18 ≤ a ∧ a < 25 then some "18‑25"
      else if 25 ≤ a ∧ a < 35 then some "25‑35"
      else if 35 ≤ a ∧ a < 50 then some "35‑50"
      else if 50 ≤ a ∧ a < 100 then some "50+"
      else none) ∧
    ageAt refDate ⟨2007, 8, 1⟩ = 17 ∧ ageGroup 17 = some "15‑18" ∧
    ageAt refDate ⟨2007, 7, 1⟩ = 18 ∧ ageGroup 18 = some "18‑25" ∧
    (∀ ref dobs, bucket_ages ref (none :: dobs) = none :: bucket_ages ref dobs) ∧
    bucketHist (bucket_ages refDate [some ⟨2007, 8, 1⟩, none, some ⟨2007, 7, 1⟩])
      = [("15‑18", 1), ("18‑25", 1)] := by
  refine ⟨fun ref d => rfl, fun ref => rfl, fun a => rfl, by decide, by decide,
    by decide, by decide, fun ref dobs => rfl, by decide⟩

/-- The crosstab matrix of two aligned series: rows are the observed values
of the first series, columns the observed values of the second, and each
cell counts joint occurrences (zero when the pair never occurs together). -/
def crosstab (a b : List String) : List (String × List (String × Nat)) :=
  (uniqueList a).map (fun x => (x, (uniqueList b).map (fun y => (y, (a.zip b).count (x, y)))))

/-- Cell lookup in the crosstab matrix. -/
def cellValue (ct : List (String × List (String × Nat))) (x y : String) : Option Nat :=
  (ct.lookup x).bind (fun row => row.lookup y)

/-- Lookup in an association list built by tagging distinct keys. -/
theorem lookup_map_self {β : Type} {f : String → β} :
    ∀ {keys : List String} {x : String}, keys.Nodup → x ∈ keys →
    (keys.map (fun k => (k, f k))).lookup x = some (f x) := by
  intro keys
  induction keys with
  | nil => intro x _ hx; cases hx
  | cons k ks ih =>
    intro x hnd hx
    rcases List.mem_cons.1 hx with rfl | hx2
    · simp [List.lookup]
    · have hxk : x ≠ k := fun h => (List.nodup_cons.1 hnd).1 (h ▸ hx2)
      have hbeq : (x == k) = false := by simp [hxk]
      simp only [List.map_cons, List.lookup, hbeq]
      exact ih (List.nodup_cons.1 hnd).2 hx2

/-- C9 (counterexample): the cross-tabulation is indexed by observed values
only — a category that never occurs in the input series (here "MX" and "M")
has no row or cell at all, while observed pairs are counted. -/
theorem crosstab_unobserved_category_omitted :
    cellValue (crosstab ["US", "US"] ["F", "F"]) "US" "F" = some 2 ∧
    cellValue (crosstab ["US", "US"] ["F", "F"]) "MX" "M" = none ∧
    "MX" ∉ (crosstab ["US", "US"] ["F", "F"]).map Prod.fst := by
  refine ⟨by decide, by decide, by decide⟩

/-- C9 (amended): for every pair of values observed in the respective
series, the cross-tabulation has a cell holding the exact joint count — in
particular a cell with value zero is present, not omitted. -/
theorem crosstab_observed_cells_present (a b : List String) (x y : String)
    (hx : x ∈ a) (hy : y ∈ b) :
    cellValue (crosstab a b) x y = some ((a.zip b).count (x, y)) := by
  have h1 : (crosstab a b).lookup x
      = some ((uniqueList b).map (fun y2 => (y2, (a.zip b).count (x, y2)))) :=
    @lookup_map_self _ (fun x2 => (uniqueList b).map (fun y2 => (y2, (a.zip b).count (x2, y2))))
      (uniqueList a) x (@nodup_uniqAux a []) (mem_uniqueList.2 hx)
  rw [cellValue, h1]
  exact @lookup_map_self _ (fun y2 => (a.zip b).count (x, y2)) (uniqueList b) y
    (@nodup_uniqAux b []) (mem_uniqueList.2 hy)

/-- Witness for the amended C9 theorem: an observed pair with zero joint
occurrences still has a cell, holding zero. -/
theorem crosstab_observed_cells_present_witness :
    cellValue (crosstab ["US", "MX"] ["F", "M"]) "US" "M"
      = some ((["US", "MX"].zip ["F", "M"]).count ("US", "M")) ∧
    (["US", "MX"].zip ["F", "M"]).count ("US", "M") = 0 :=
  ⟨crosstab_observed_cells_present ["US", "MX"] ["F", "M"] "US" "M" (by decide) (by decide),
    by decide⟩

/-- The email column after the source's cleaning: missing values become the
empty string and surrounding whitespace is trimmed. -/
def cleanEmails (l : List (Option String)) : List String :=
  l.map (fun o => ⟨pyStrip (o.getD "").data⟩)

/-- Rows kept by the source's duplicate mask: non-blank entries whose value
occurs at least twice in the cleaned column. -/
def dupRows (l : List String) : List String :=
  l.filter (fun x => decide (2 ≤ l.count x) && decide (x ≠ ""))

/-- The distinct duplicated values the source reports
(`dupes[[email_col]].drop_duplicates()`). -/
def find_duplicates (l : List (Option String)) : List String :=
  uniqueList (dupRows (cleanEmails l))

/-- C10: duplicate detection reports exactly the values that occur more than
once among the non-blank trimmed entries, and a blank value is never
reported however often it occurs; on the spec's example only "a@x.com" is
reported. -/
theorem find_duplicates_spec :
    (∀ (l : List (Option String)) (v : String),
      v ∈ find_duplicates l ↔
        v ≠ "" ∧ 2 ≤ ((cleanEmails l).filter (fun x => decide (x ≠ ""))).count v) ∧
    find_duplicates [some "a@x.com", some "", some "a@x.com", some ""] = ["a@x.com"] ∧
    find_duplicates [some "", some "", some ""] = [] := by
  refine ⟨?_, by decide, by decide⟩
  intro l v
  rw [find_duplicates, mem_uniqueList, dupRows, List.mem_filter]
  constructor
  · rintro ⟨hmem, hpred⟩
    rcases Bool.and_eq_true_iff.1 hpred with ⟨h1, h2⟩
    have hv : v ≠ "" := of_decide_eq_true h2
    refine ⟨hv, ?_⟩
    rw [List.count_filter (by simp [hv])]
    exact of_decide_eq_true h1
  · rintro ⟨hv, hcnt⟩
    rw [List.count_filter (by simp [hv])] at hcnt
    have hmem : v ∈ cleanEmails l :=
      List.count_pos_iff.1 (Nat.lt_of_lt_of_le (by omega) hcnt)
    refine ⟨hmem, ?_⟩
    rw [Bool.and_eq_true_iff]
    exact ⟨decide_eq_true hcnt, decide_eq_true hv⟩

end Voluntariado
